import Mathlib

/-!
Shallow embedding of the bionic-reading EPUB converter (src/Bionic.py,
src/cli.py) and proofs about its specification.

The program's pure core is the `bolding` text transform; around it sit a
streaming HTML tokenizer (the standard library's `HTMLParser` as subclassed
by `MyHTMLParser`), a per-document transform (`process_html_file`), a
per-archive job (`generate_epub` / `create_epub`), and the batch submission
loop (`process_files` inside `generate_epubs`).  Strings are modelled as
`List Char` where character-level scanning matters, filesystem and archive
effects as explicit environments (`DocEnv`, `JobEnv`) recording the outcome
of each fallible operation, and the shared cancellation flag as the sequence
of values it is observed to have at each of the job's check points.
-/

namespace Bionic


/-- ASCII word character — the `\w` class of the regular expressions in
`bolding` (src/Bionic.py line 111/114) restricted to its ASCII fragment:
letters, digits and underscore. -/
def isWordChar (c : Char) : Bool := c.isAlphanum || c == '_'

/-- ASCII whitespace — the `\s` class of the same regular expressions:
space, tab, newline, carriage return, vertical tab, form feed. -/
def isSpaceChar (c : Char) : Bool :=
  c == ' ' || c == '\t' || c == '\n' || c == '\r' || c == '\x0b' || c == '\x0c'

/-- The tokenization `re.findall(r'\w+|[^\w\s]', text)` of `bolding`
(src/Bionic.py line 111): a token is a maximal run of word characters or a
single character that is neither a word character nor whitespace; whitespace
is dropped. -/
def tokenize : List Char → List (List Char)
  | [] => []
  | c :: cs =>
    if isWordChar c then
      (c :: cs.takeWhile isWordChar) :: tokenize (cs.dropWhile isWordChar)
    else if isSpaceChar c then
      tokenize cs
    else
      [c] :: tokenize cs
termination_by l => l.length
decreasing_by
  · exact Nat.lt_succ_of_le (List.dropWhile_sublist isWordChar).length_le
  · exact Nat.lt_succ_self _
  · exact Nat.lt_succ_self _

/-- The bold-prefix length of src/Bionic.py line 120:
`point = ceil(log(len(token), 2)) if len(token) > 3 else 1`.
The source's floating-point `math.log(·, 2)` is modelled by the exact
base-2 ceiling logarithm `Nat.clog 2`. -/
def point (n : Nat) : Nat := if n > 3 then Nat.clog 2 n else 1

/-- The word-token branch of src/Bionic.py line 121:
`processed = f"<b>{token[:point]}</b>{token[point:]}"`. -/
def wordBold (tok : List Char) : List Char :=
  "<b>".data ++ tok.take (point tok.length)
    ++ "</b>".data ++ tok.drop (point tok.length)

/-- The test `re.fullmatch(r'[^\w\s]', token)` of src/Bionic.py line 114:
is the token a single character that is neither word nor whitespace? -/
def isPunctTok (tok : List Char) : Bool :=
  match tok with
  | [c] => !isWordChar c && !isSpaceChar c
  | _ => false

/-- `if result: result[-1] += token else: result.append(token)`
(src/Bionic.py lines 115-118): append `tok` to the last element of the
accumulated list, or emit it standalone when the list is empty. -/
def appendToLast (tok : List Char) : List (List Char) → List (List Char)
  | [] => [tok]
  | [r] => [r ++ tok]
  | r :: rs => r :: appendToLast tok rs

/-- One iteration of the loop body of `bolding` (src/Bionic.py
lines 113-122). -/
def processToken (result : List (List Char)) (tok : List Char) :
    List (List Char) :=
  if isPunctTok tok then appendToLast tok result
  else result ++ [wordBold tok]

/-- `' '.join(result)` (src/Bionic.py line 123). -/
def joinSpace : List (List Char) → List Char
  | [] => []
  | [r] => r
  | r :: rs => r ++ ' ' :: joinSpace rs

/-- The `bolding` function of src/Bionic.py lines 109-123. -/
def bolding (text : String) : String :=
  ⟨joinSpace ((tokenize text.data).foldl processToken [])⟩

/-! ### Deleting the emphasis markers

`stripTags` formalizes the spec's "deleting all emphasis markers from the
output": every occurrence of `<b>` or `</b>` is removed, scanning left to
right. -/

def stripTags : List Char → List Char
  | '<' :: 'b' :: '>' :: rest => stripTags rest
  | '<' :: '/' :: 'b' :: '>' :: rest => stripTags rest
  | c :: rest => c :: stripTags rest
  | [] => []
termination_by l => l.length
decreasing_by all_goals simp_arith

/-- Relation between an element of `bolding`'s result list and the original
token characters it carries: either a nonempty run of punctuation
characters, or a marked word (prefix and rest) followed by appended
punctuation. -/
inductive GoodElem : List Char → List Char → Prop
  | punct (p : List Char)
      (hp : ∀ c ∈ p, isWordChar c = false ∧ isSpaceChar c = false)
      (hne : p ≠ []) : GoodElem p p
  | word (w1 w2 p : List Char)
      (h1 : ∀ c ∈ w1, isWordChar c = true) (hne : w1 ≠ [])
      (h2 : ∀ c ∈ w2, isWordChar c = true)
      (hp : ∀ c ∈ p, isWordChar c = false ∧ isSpaceChar c = false) :
      GoodElem ("<b>".data ++ w1 ++ "</b>".data ++ w2 ++ p) (w1 ++ w2 ++ p)

/-- The ghost accumulator: the same loop as `processToken` but appending
the raw token instead of its marked form. -/
def processTokenPlain (result : List (List Char)) (tok : List Char) :
    List (List Char) :=
  if isPunctTok tok then appendToLast tok result
  else result ++ [tok]

/-! ### The HTML tokenizer

`MyHTMLParser` (src/Bionic.py lines 94-107) subclasses the standard
library's `html.parser.HTMLParser` without arguments, so the parser runs
with its default `convert_charrefs=True`: character and entity references
occurring in text are converted to the corresponding characters before
`handle_data` receives them.  `process_html_file` calls `feed` once and
never `close`, so input the parser buffers while waiting for more text
(an unterminated tag, or a trailing text run ending in an unresolved
`&`-run) is never flushed and yields no event.

The events recorded in `data_html` are modelled by `HtmlPart`; the
parsing is modelled from the standard-library parser's behavior on the
fragment the theorems quantify over: complete `<`/`>`-delimited tags with
names and attribute names lowercased and quoted attribute values taken
whole, declarations/comments/processing instructions dropped (no handler
is defined for them), text runs emitted as one event each with references
decoded, the trailing run withheld when it ends in an unresolved `&`-run
(the stdlib's wait-for-more-text rule).  Reference decoding covers the
named references with semicolons used in the claims' domains plus plain
decimal numerics; the full HTML5 table, semicolon-less forms, and
`html.unescape`'s invalid-codepoint quirks are outside the modelled
fragment and outside every theorem's quantified domain. -/

inductive HtmlPart where
  | startTag (tag : String) (attrs : List (String × String))
  | endTag (tag : String)
  | dataText (s : String)
deriving DecidableEq, Repr

/-- The numeric value of a run of decimal digits. -/
def digitsVal (ds : List Char) : Nat :=
  ds.foldl (fun a c => 10 * a + (c.toNat - 48)) 0

/-- Recognize one semicolon-terminated named reference body (the part
after `&`): the decoded character and how many input characters it
spans.  These entries agree with `html.unescape`. -/
def namedEntity (l : List Char) : Option (Char × Nat) :=
  if l.take 4 = "amp;".data then some ('&', 4)
  else if l.take 3 = "lt;".data then some ('<', 3)
  else if l.take 3 = "gt;".data then some ('>', 3)
  else if l.take 5 = "quot;".data then some ('"', 5)
  else if l.take 5 = "apos;".data then some (Char.ofNat 39, 5)
  else if l.take 5 = "nbsp;".data then some (Char.ofNat 160, 5)
  else none

/-- Recognize one character/entity reference body: a named reference or a
semicolon-terminated decimal numeric reference. -/
def matchEntity (l : List Char) : Option (Char × Nat) :=
  match namedEntity l with
  | some r => some r
  | none =>
    match l with
    | '#' :: ds =>
      let digits := ds.takeWhile Char.isDigit
      if digits ≠ [] ∧ (ds.drop digits.length).head? = some ';' then
        some (Char.ofNat (digitsVal digits), digits.length + 2)
      else none
    | _ => none

/-- `convert_charrefs=True`: replace each recognized reference in a text
run by its character; an `&` that opens no recognized reference stays. -/
def decodeCharrefs : List Char → List Char
  | [] => []
  | '&' :: rest =>
    match matchEntity rest with
    | some (c, n) => c :: decodeCharrefs (rest.drop n)
    | none => '&' :: decodeCharrefs rest
  | c :: rest => c :: decodeCharrefs rest
termination_by l => l.length
decreasing_by
  · simp only [List.length_cons, List.length_drop]
    omega
  · simp
  · simp

/-- The stdlib's wait-for-more-text rule (`goahead`, applied to the final
text run when no further `<` exists): buffer everything when the last `&`
among the final 34 characters has no whitespace and no `;` after it.
Rendered recursively: some `&` is followed by at most 33 characters, none
of which is whitespace, `;`, or a later `&`. -/
def ambiguousTrailingAmp : List Char → Bool
  | [] => false
  | '&' :: t =>
    (decide (t.length ≤ 33) &&
      t.all (fun c => !isSpaceChar c && c != ';' && c != '&'))
    || ambiguousTrailingAmp t
  | _ :: t => ambiguousTrailingAmp t

/-- Text whose every `&` opens a semicolon-terminated named reference
from the modelled table.  On such text the modelled decoding agrees with
`html.unescape`, and the wait-for-more-text rule never withholds it. -/
def safeRefs : List Char → Bool
  | [] => true
  | '&' :: rest =>
    match namedEntity rest with
    | some r => safeRefs (rest.drop r.2)
    | none => false
  | _ :: rest => safeRefs rest
termination_by l => l.length
decreasing_by
  · simp only [List.length_cons, List.length_drop]
    omega
  · simp

/-- Split a tag's attribute text at spaces outside double quotes (the
stdlib's `attrfind_tolerant` keeps a quoted value whole). -/
def splitAttrsAux (inQ : Bool) (cur : List Char) :
    List Char → List (List Char)
  | [] => if cur.isEmpty then [] else [cur.reverse]
  | c :: rest =>
    if c == '"' then splitAttrsAux (!inQ) (c :: cur) rest
    else if c == ' ' && !inQ then
      if cur.isEmpty then splitAttrsAux false [] rest
      else cur.reverse :: splitAttrsAux false [] rest
    else splitAttrsAux inQ (c :: cur) rest

/-- Parse `name="value"` attribute items as the standard parser reports
them to `handle_starttag`: names lowercased, values unquoted. -/
def parseAttrs (l : List Char) : List (String × String) :=
  (splitAttrsAux false [] l).map fun w =>
    (⟨(w.takeWhile (· != '=')).map Char.toLower⟩,
     ⟨((w.dropWhile (· != '=')).drop 1).filter (· != '"')⟩)

/-- The event stream `MyHTMLParser.data_html` produced by feeding the
document text once (no `close`): start tags with lowercased name and
their attribute list, end tags by lowercased name, text runs as one
decoded data event each.  An unterminated tag is buffered (no event);
declarations, comments and processing instructions produce no event
(`MyHTMLParser` defines no handler for them); a trailing text run ending
in an unresolved `&`-run is withheld by the wait-for-more-text rule. -/
def parseHtml : List Char → List HtmlPart
  | [] => []
  | c :: rest =>
    if c == '<' then
      if (rest.dropWhile (· != '>')).isEmpty then []
      else
        let inner := rest.takeWhile (· != '>')
        let rest' := (rest.dropWhile (· != '>')).drop 1
        (match inner with
         | '/' :: name =>
           [HtmlPart.endTag ⟨(name.takeWhile (· != ' ')).map Char.toLower⟩]
         | '!' :: _ => []
         | '?' :: _ => []
         | _ =>
           [HtmlPart.startTag
             ⟨(inner.takeWhile (· != ' ')).map Char.toLower⟩
             (parseAttrs (inner.dropWhile (· != ' ')))]) ++ parseHtml rest'
    else
      let run := c :: rest.takeWhile (· != '<')
      let rest' := rest.dropWhile (· != '<')
      if rest'.isEmpty && ambiguousTrailingAmp run then []
      else HtmlPart.dataText ⟨decodeCharrefs run⟩ :: parseHtml rest'
termination_by l => l.length
decreasing_by
  · exact Nat.lt_succ_of_le (le_trans (List.drop_sublist _ _).length_le
      (List.dropWhile_sublist _).length_le)
  · exact Nat.lt_succ_of_le (List.dropWhile_sublist _).length_le

/-! ### Reassembly and the per-document transform
(`process_html_file`, src/Bionic.py lines 334-369) -/

/-- Render one recorded event back to text (src/Bionic.py lines 348-361):
data goes through `bolding`, start tags are rebuilt with
`attr="value"` pairs joined by single spaces, end tags as `</name>`. -/
def renderPart : HtmlPart → String
  | .dataText s => bolding s
  | .startTag tag attrs =>
    let attrStr := String.intercalate " "
      (attrs.map fun a => a.1 ++ "=\"" ++ a.2 ++ "\"")
    "<" ++ tag ++ (if attrStr = "" then "" else " " ++ attrStr) ++ ">"
  | .endTag tag => "</" ++ tag ++ ">"

/-- The accumulation of `full_html` over `parser.data_html`. -/
def reassemble (parts : List HtmlPart) : String :=
  parts.foldl (fun acc p => acc ++ renderPart p) ""

/-- The fixed document header `first_tags` (src/Bionic.py line 304),
byte-exact (`\x27` is the apostrophe). -/
def first_tags : String :=
  "<?xml version=\x271.0\x27 encoding=\x27utf-8\x27?>\n<!DOCTYPE html PUBLIC \x27-//W3C//DTD XHTML 1.1//EN\x27 \x27http://www.w3.org/TR/xhtml11/DTD/xhtml11.dtd\x27>\n"

/-- `full_html = first_tags + <reassembled events>`
(src/Bionic.py lines 344-362). -/
def transformHtml (firstTags html_data : String) : String :=
  firstTags ++ reassemble (parseHtml html_data.data)

/-- Filesystem environment of one document: the text delivered by the
`open(...).read()` (`none` when the read raises) and whether the write
back succeeds. -/
structure DocEnv where
  path : String
  readResult : Option String
  writeOk : Bool
deriving DecidableEq, Repr

/-- What `process_html_file` did: its log lines and the contents it
attempted to write (`none` when no write was attempted). -/
structure DocOutcome where
  logs : List String
  writeAttempt : Option String
deriving DecidableEq, Repr

/-- `process_html_file` (src/Bionic.py lines 334-369): a failed read is
logged and the function returns without writing; otherwise the transformed
document is written, and a failed write is logged.  Both exception
handlers swallow the error. -/
def process_html_file (env : DocEnv) (firstTags : String) : DocOutcome :=
  match env.readResult with
  | none =>
    { logs := ["Failed to read HTML file " ++ env.path],
      writeAttempt := none }
  | some html_data =>
    let full_html := transformHtml firstTags html_data
    { logs := ["Read " ++ env.path ++ " successfully."] ++
        (if env.writeOk then ["Wrote " ++ env.path ++ " successfully."]
         else ["Failed to write HTML file " ++ env.path]),
      writeAttempt := some full_html }

/-- The document's on-disk contents after `process_html_file`: changed
only when a write was attempted and succeeded. -/
def docFinalContents (orig : String) (env : DocEnv) (firstTags : String) :
    String :=
  match (process_html_file env firstTags).writeAttempt with
  | some c => if env.writeOk then c else orig
  | none => orig

/-! ### The per-archive job (`generate_epub`, src/Bionic.py lines 287-328)
and the batch loop (`process_files`, lines 265-277)

The shared `cancel_event` is modelled by the sequence of values it is
observed to have: `cancel k` is the result of the k-th `is_set()` check of
the job (check 0 at the start of the job, check `i + 1` before document
`i`). -/

structure JobEnv where
  cancel : Nat → Bool
  extractOk : Bool
  docs : List DocEnv
  packOk : Bool

structure JobResult where
  logs : List String
  outcomes : List DocOutcome
  output : Option String
deriving DecidableEq, Repr

/-- The document loop of `generate_epub` (src/Bionic.py lines 316-320):
before each document the cancellation flag is checked; when set the
function returns (second component `false` = the loop was abandoned). -/
def runDocs (firstTags : String) (cancel : Nat → Bool) :
    Nat → List DocEnv → List DocOutcome × Bool
  | _, [] => ([], true)
  | k, d :: ds =>
    if cancel k then ([], false)
    else
      let o := process_html_file d firstTags
      let (os, fin) := runDocs firstTags cancel (k + 1) ds
      (o :: os, fin)

/-- `generate_epub` (src/Bionic.py lines 287-328) together with
`create_epub` (lines 371-379): cancellation check before any work; the
archive is extracted (a `BadZipFile` is caught and logged); with no HTML
files the job logs and returns; otherwise each document is transformed in
order and the repacked archive is moved to `<dest>/b_<name>.epub` —
`shutil.make_archive(str(epub_path), "zip", ...)` followed by
`shutil.move(f"{epub_path}.zip", f"{epub_path}.epub")` where
`epub_path = dest_folder / f"b_{file_name}"`.  A repack failure is caught
and logged inside `create_epub`; `generate_epub` still logs the final
"Modified EPUB created" line (a faithful quirk of the source). -/
def generate_epub (file_name dest : String) (env : JobEnv) : JobResult :=
  if env.cancel 0 then { logs := [], outcomes := [], output := none }
  else
    let epub_path := dest ++ "/b_" ++ file_name
    let logs0 := ["Processing " ++ file_name ++ "..."]
    if !env.extractOk then
      { logs := logs0 ++ ["Bad EPUB archive " ++ file_name],
        outcomes := [], output := none }
    else
      let logs1 := logs0 ++ ["Extracted " ++ file_name ++ " successfully."]
      if env.docs = [] then
        { logs := logs1 ++ ["No HTML files found in " ++ file_name],
          outcomes := [], output := none }
      else
        let r := runDocs first_tags env.cancel 1 env.docs
        if r.2 then
          if env.packOk then
            { logs := logs1 ++ (r.1.map (·.logs)).flatten ++
                ["Created EPUB file " ++ epub_path ++ ".epub successfully.",
                 "Modified EPUB created at " ++ epub_path ++ ".epub"],
              outcomes := r.1, output := some (epub_path ++ ".epub") }
          else
            { logs := logs1 ++ (r.1.map (·.logs)).flatten ++
                ["Failed to create EPUB file " ++ epub_path,
                 "Modified EPUB created at " ++ epub_path ++ ".epub"],
              outcomes := r.1, output := none }
        else
          { logs := logs1 ++ (r.1.map (·.logs)).flatten,
            outcomes := r.1, output := none }

/-- The submission loop of `process_files` (src/Bionic.py lines 270-273):
`for file_path in file_paths: if cancel_event.is_set(): break;
futures.append(executor.submit(generate_epub, ...))`.  `cancel k` is the
value of the flag observed before submitting the k-th file; the result is
the list of files actually submitted. -/
def submitJobs (cancel : Nat → Bool) : Nat → List String → List String
  | _, [] => []
  | k, f :: fs =>
    if cancel k then [] else f :: submitJobs cancel (k + 1) fs

/-- A concrete one-document job environment with nothing failing. -/
def okJobEnv : JobEnv :=
  { cancel := fun _ => false, extractOk := true,
    docs := [⟨"b.html", some "hi", true⟩], packOk := true }

/-- A concrete two-document job whose first document fails to read. -/
def readFailEnv : JobEnv :=
  { cancel := fun _ => false, extractOk := true,
    docs := [⟨"a.html", none, true⟩, ⟨"b.html", some "hi", true⟩],
    packOk := true }

/-- A concrete job environment whose cancellation flag turns on from the
second check (check index 1) onward. -/
def lateCancelEnv : JobEnv :=
  { cancel := fun i => decide (1 ≤ i), extractOk := true,
    docs := [⟨"a.html", some "x", true⟩], packOk := true }

example : bolding "cat" = "<b>c</b>at" := by
  simp +decide [bolding, tokenize, processToken, joinSpace, wordBold, point, Nat.clog]

example : bolding "Hello, world!" = "<b>Hel</b>lo, <b>wor</b>ld!" := by
  simp +decide [bolding, tokenize, processToken, joinSpace, wordBold, point, Nat.clog,
    appendToLast]

example : bolding " a" = "<b>a</b>" := by
  simp +decide [bolding, tokenize, processToken, joinSpace, wordBold, point, Nat.clog]

example : bolding "reading" = "<b>rea</b>ding" := by
  simp +decide [bolding, tokenize, processToken, joinSpace, wordBold, point, Nat.clog]

example : bolding "" = "" := by
  simp +decide [bolding, tokenize]

/-! ### Character-class facts -/

lemma space_not_word {c : Char} (h : isSpaceChar c = true) :
    isWordChar c = false := by
  have hc : c = ' ' ∨ c = '\t' ∨ c = '\n' ∨ c = '\r' ∨ c = '\x0b' ∨
      c = '\x0c' := by
    simpa [isSpaceChar, or_assoc] using h
  rcases hc with rfl | rfl | rfl | rfl | rfl | rfl <;> decide

lemma word_not_space {c : Char} (h : isWordChar c = true) :
    isSpaceChar c = false := by
  cases hs : isSpaceChar c
  · rfl
  · rw [space_not_word hs] at h
    cases h

/-! ### Tokenizer structure -/

lemma takeWhile_append_punct {p : Char → Bool} {c : Char} (hc : p c = false) :
    ∀ l : List Char, (l ++ [c]).takeWhile p = l.takeWhile p := by
  intro l
  induction l with
  | nil => simp [List.takeWhile, hc]
  | cons d ds ih =>
    by_cases hd : p d
    · simpa [List.takeWhile_cons, hd] using ih
    · simp [List.takeWhile_cons, hd]

lemma dropWhile_append_punct {p : Char → Bool} {c : Char} (hc : p c = false) :
    ∀ l : List Char, (l ++ [c]).dropWhile p = l.dropWhile p ++ [c] := by
  intro l
  induction l with
  | nil => simp [List.dropWhile, hc]
  | cons d ds ih =>
    by_cases hd : p d
    · simpa [List.dropWhile_cons, hd] using ih
    · simp [List.dropWhile_cons, hd]

/-- Every token of `tokenize` is a nonempty run of word characters or a
single character that is neither word nor whitespace. -/
lemma tokenize_shape {l : List Char} {tok : List Char}
    (h : tok ∈ tokenize l) :
    (tok ≠ [] ∧ ∀ c ∈ tok, isWordChar c = true) ∨
    (∃ c, tok = [c] ∧ isWordChar c = false ∧ isSpaceChar c = false) := by
  induction l using tokenize.induct with
  | case1 => simp [tokenize] at h
  | case2 c cs hc ih =>
    rw [tokenize, if_pos hc] at h
    rcases List.mem_cons.1 h with h1 | h2
    · subst h1
      refine Or.inl ⟨by simp, ?_⟩
      intro d hd
      rcases List.mem_cons.1 hd with rfl | hd'
      · exact hc
      · exact List.mem_takeWhile_imp hd'
    · exact ih h2
  | case3 c cs hc hs ih =>
    rw [tokenize, if_neg (by simp [hc]), if_pos hs] at h
    exact ih h
  | case4 c cs hc hs ih =>
    rw [tokenize, if_neg (by simp [hc]), if_neg (by simp [hs])] at h
    rcases List.mem_cons.1 h with h1 | h2
    · subst h1
      exact Or.inr ⟨c, rfl, by simpa using hc, by simpa using hs⟩
    · exact ih h2

/-- Concatenating all tokens of `tokenize` recovers exactly the
non-whitespace characters of the input, in order. -/
lemma tokenize_flatten (l : List Char) :
    (tokenize l).flatten = l.filter (fun c => !isSpaceChar c) := by
  induction l using tokenize.induct with
  | case1 => simp [tokenize]
  | case2 c cs hc ih =>
    rw [tokenize, if_pos hc]
    have hsplit : cs = cs.takeWhile isWordChar ++ cs.dropWhile isWordChar :=
      (List.takeWhile_append_dropWhile isWordChar cs).symm
    have htw : (cs.takeWhile isWordChar).filter (fun c => !isSpaceChar c)
        = cs.takeWhile isWordChar := by
      refine List.filter_eq_self.2 ?_
      intro a ha
      simp [word_not_space (List.mem_takeWhile_imp ha)]
    calc ((c :: cs.takeWhile isWordChar) ::
            tokenize (cs.dropWhile isWordChar)).flatten
        = c :: (cs.takeWhile isWordChar ++
            (tokenize (cs.dropWhile isWordChar)).flatten) := by simp
      _ = c :: (cs.takeWhile isWordChar ++
            (cs.dropWhile isWordChar).filter (fun c => !isSpaceChar c)) := by
          rw [ih]
      _ = (c :: cs).filter (fun c => !isSpaceChar c) := by
          rw [List.filter_cons_of_pos (by simp [word_not_space hc])]
          congr 1
          conv_rhs => rw [hsplit]
          rw [List.filter_append, htw]
  | case3 c cs hc hs ih =>
    rw [tokenize, if_neg (by simp [hc]), if_pos hs]
    rw [ih, List.filter_cons_of_neg (by simp [hs])]
  | case4 c cs hc hs ih =>
    rw [tokenize, if_neg (by simp [hc]), if_neg (by simp [hs])]
    simp only [List.flatten_cons, ih]
    rw [List.filter_cons_of_pos (by simp [hs])]
    simp

/-- Appending one non-word, non-whitespace character to the input appends
one single-character token to the token list. -/
lemma tokenize_append_punct {c : Char} (hw : isWordChar c = false)
    (hs : isSpaceChar c = false) (l : List Char) :
    tokenize (l ++ [c]) = tokenize l ++ [[c]] := by
  induction l using tokenize.induct with
  | case1 => simp [tokenize, hw, hs]
  | case2 d cs hd ih =>
    rw [List.cons_append, tokenize, if_pos hd,
      takeWhile_append_punct (by simp [hw]),
      dropWhile_append_punct (by simp [hw]), ih,
      tokenize, if_pos hd]
    simp
  | case3 d cs hd hs' ih =>
    rw [List.cons_append, tokenize, if_neg (by simp [hd]), if_pos hs', ih,
      tokenize, if_neg (by simp [hd]), if_pos hs']
  | case4 d cs hd hs' ih =>
    rw [List.cons_append, tokenize, if_neg (by simp [hd]),
      if_neg (by simp [hs']), ih,
      tokenize, if_neg (by simp [hd]), if_neg (by simp [hs'])]
    simp

/-- A purely-whitespace input yields no tokens. -/
lemma tokenize_all_space {l : List Char} (h : ∀ c ∈ l, isSpaceChar c = true) :
    tokenize l = [] := by
  induction l using tokenize.induct with
  | case1 => simp [tokenize]
  | case2 c cs hc ih =>
    have := h c (by simp)
    rw [space_not_word this] at hc
    cases hc
  | case3 c cs hc hs ih =>
    rw [tokenize, if_neg (by simp [hc]), if_pos hs]
    exact ih fun d hd => h d (List.mem_cons_of_mem _ hd)
  | case4 c cs hc hs ih =>
    exact absurd (h c (by simp)) hs

/-! ### The result accumulator -/

lemma appendToLast_ne_nil (t : List Char) (R : List (List Char)) :
    appendToLast t R ≠ [] := by
  match R with
  | [] => simp [appendToLast]
  | [r] => simp [appendToLast]
  | r :: r' :: rs => simp [appendToLast]

lemma joinSpace_cons_of_ne {r : List Char} {R : List (List Char)}
    (h : R ≠ []) : joinSpace (r :: R) = r ++ ' ' :: joinSpace R := by
  match R with
  | [] => cases h rfl
  | r' :: rs => rfl

lemma joinSpace_appendToLast (t : List Char) :
    ∀ R : List (List Char), R ≠ [] →
      joinSpace (appendToLast t R) = joinSpace R ++ t := by
  intro R
  induction R with
  | nil => intro h; cases h rfl
  | cons r rs ih =>
    intro _
    match rs with
    | [] => simp [appendToLast, joinSpace]
    | r' :: rs' =>
      rw [show appendToLast t (r :: r' :: rs') =
            r :: appendToLast t (r' :: rs') from rfl,
        joinSpace_cons_of_ne (appendToLast_ne_nil _ _),
        joinSpace_cons_of_ne (by simp), ih (by simp)]
      simp

lemma flatten_appendToLast (t : List Char) (R : List (List Char)) :
    (appendToLast t R).flatten = R.flatten ++ t := by
  induction R with
  | nil => simp [appendToLast]
  | cons r rs ih =>
    match rs with
    | [] => simp [appendToLast]
    | r' :: rs' =>
      rw [show appendToLast t (r :: r' :: rs') =
            r :: appendToLast t (r' :: rs') from rfl]
      simp only [List.flatten_cons, ih]
      simp

lemma processToken_ne_nil (R : List (List Char)) (tok : List Char) :
    processToken R tok ≠ [] := by
  unfold processToken
  split
  · exact appendToLast_ne_nil _ _
  · simp

lemma foldl_processToken_ne_nil :
    ∀ (ts : List (List Char)) (R : List (List Char)), R ≠ [] →
      ts.foldl processToken R ≠ [] := by
  intro ts
  induction ts with
  | nil => intro R h; simpa using h
  | cons t ts ih =>
    intro R _
    rw [List.foldl_cons]
    exact ih _ (processToken_ne_nil R t)

lemma tokens_result_ne_nil {l : List Char} (h : tokenize l ≠ []) :
    (tokenize l).foldl processToken [] ≠ [] := by
  match hl : tokenize l with
  | [] => cases h hl
  | t :: ts =>
    rw [List.foldl_cons]
    exact foldl_processToken_ne_nil _ _ (processToken_ne_nil [] t)

lemma processToken_punct {tok : List Char} (h : isPunctTok tok = true)
    (R : List (List Char)) : processToken R tok = appendToLast tok R := by
  unfold processToken
  rw [if_pos h]

lemma isPunctTok_of_word {tok : List Char} (hne : tok ≠ [])
    (hw : ∀ c ∈ tok, isWordChar c = true) : isPunctTok tok = false := by
  match tok with
  | [] => cases hne rfl
  | [c] => simp [isPunctTok, hw c (by simp)]
  | c :: d :: rest => rfl

/-! ### Claim theorems about `bolding` -/

/-- C7: for every token produced by the tokenizer inside `bolding` — in
particular every word token — the bold-prefix length satisfies
`1 ≤ point ≤ length`: the bolded prefix never extends beyond the word. -/
theorem prefix_length_bounds (l : List Char) (tok : List Char)
    (h : tok ∈ tokenize l) :
    1 ≤ point tok.length ∧ point tok.length ≤ tok.length := by
  have hne : tok ≠ [] := by
    rcases tokenize_shape h with ⟨hne, _⟩ | ⟨c, rfl, _⟩
    · exact hne
    · simp
  have hlen : 1 ≤ tok.length := List.length_pos.2 hne
  unfold point
  split
  · next h3 =>
    refine ⟨Nat.clog_pos (by norm_num) (by omega), ?_⟩
    exact (Nat.le_pow_iff_clog_le (by norm_num)).1 (Nat.lt_two_pow _).le
  · exact ⟨le_refl 1, hlen⟩

/-- Witness for C7 at the concrete token `word` of the input `word`. -/
theorem prefix_length_bounds_witness :
    1 ≤ point "word".data.length ∧
      point "word".data.length ≤ "word".data.length :=
  prefix_length_bounds "word".data "word".data
    (by simp +decide [tokenize])

/-- C1: a word token of length at most 3 receives bold-prefix length 1 and
a longer one receives `⌈log₂ length⌉`; the token is emitted as the
emphasis-open marker, the prefix, the emphasis-close marker, then the rest;
`bolding "cat" = "<b>c</b>at"`. -/
theorem bolding_word_prefix_rule (tok : List Char) (hne : tok ≠ [])
    (hw : ∀ c ∈ tok, isWordChar c = true) (R : List (List Char)) :
    (tok.length ≤ 3 → point tok.length = 1) ∧
    (3 < tok.length →
      (point tok.length : ℤ) = ⌈Real.logb 2 (tok.length : ℝ)⌉) ∧
    processToken R tok =
      R ++ ["<b>".data ++ tok.take (point tok.length)
        ++ "</b>".data ++ tok.drop (point tok.length)] ∧
    bolding "cat" = "<b>c</b>at" := by
  refine ⟨?_, ?_, ?_, ?_⟩
  · intro h3
    unfold point
    rw [if_neg (by omega)]
  · intro h3
    unfold point
    rw [if_pos h3]
    have hceil := Real.ceil_logb_natCast (b := 2) (r := (tok.length : ℝ))
      (by positivity)
    rw [Int.clog_natCast] at hceil
    rw [show ((2 : ℕ) : ℝ) = (2 : ℝ) by norm_num] at hceil
    exact hceil.symm
  · unfold processToken
    rw [isPunctTok_of_word hne hw]
    simp [wordBold]
  · simp +decide [bolding, tokenize, processToken, joinSpace, wordBold,
      point, Nat.clog]

/-- Witness for C1 at the concrete word token `reading`. -/
theorem bolding_word_prefix_rule_witness :
    ("reading".data.length ≤ 3 → point "reading".data.length = 1) ∧
    (3 < "reading".data.length →
      (point "reading".data.length : ℤ) =
        ⌈Real.logb 2 ("reading".data.length : ℝ)⌉) ∧
    processToken [] "reading".data =
      [] ++ ["<b>".data ++ "reading".data.take (point "reading".data.length)
        ++ "</b>".data ++ "reading".data.drop (point "reading".data.length)] ∧
    bolding "cat" = "<b>c</b>at" :=
  bolding_word_prefix_rule "reading".data (by decide) (by decide) []

/-- C2: a single non-word, non-whitespace token is appended directly to the
previously emitted token (no separating space), or emitted standalone when
nothing precedes it; all other emitted tokens are joined by single spaces;
`bolding "Hello, world!" = "<b>Hel</b>lo, <b>wor</b>ld!"`. -/
theorem bolding_punct_append_rule (l : List Char) (c : Char)
    (hw : isWordChar c = false) (hs : isSpaceChar c = false) :
    (tokenize l ≠ [] →
      bolding ⟨l ++ [c]⟩ = bolding ⟨l⟩ ++ ⟨[c]⟩) ∧
    ((∀ d ∈ l, isSpaceChar d = true) → bolding ⟨l ++ [c]⟩ = ⟨[c]⟩) ∧
    bolding "Hello, world!" = "<b>Hel</b>lo, <b>wor</b>ld!" := by
  have hpunct : isPunctTok [c] = true := by simp [isPunctTok, hw, hs]
  refine ⟨?_, ?_, ?_⟩
  · intro hne
    show (⟨joinSpace ((tokenize (l ++ [c])).foldl processToken [])⟩ : String)
      = _
    rw [tokenize_append_punct hw hs, List.foldl_append]
    show (⟨joinSpace
      (processToken ((tokenize l).foldl processToken []) [c])⟩ : String) = _
    rw [processToken_punct hpunct,
      joinSpace_appendToLast [c] _ (tokens_result_ne_nil hne)]
    rfl
  · intro hall
    show (⟨joinSpace ((tokenize (l ++ [c])).foldl processToken [])⟩ : String)
      = _
    rw [tokenize_append_punct hw hs, tokenize_all_space hall]
    show (⟨joinSpace (processToken [] [c])⟩ : String) = _
    rw [processToken_punct hpunct]
    rfl
  · simp +decide [bolding, tokenize, processToken, joinSpace, wordBold,
      point, Nat.clog, appendToLast]

/-- Witness for C2: the exclamation mark appended after `ab`, and after a
blank-only input. -/
theorem bolding_punct_append_rule_witness :
    (tokenize "ab".data ≠ [] →
      bolding ⟨"ab".data ++ ['!']⟩ = bolding ⟨"ab".data⟩ ++ ⟨['!']⟩) ∧
    ((∀ d ∈ "ab".data, isSpaceChar d = true) →
      bolding ⟨"ab".data ++ ['!']⟩ = ⟨['!']⟩) ∧
    bolding "Hello, world!" = "<b>Hel</b>lo, <b>wor</b>ld!" :=
  bolding_punct_append_rule "ab".data '!' (by decide) (by decide)

lemma stripTags_nil : stripTags [] = [] := by
  rw [stripTags]

lemma stripTags_open (r : List Char) :
    stripTags ('<' :: 'b' :: '>' :: r) = stripTags r := by
  rw [stripTags]

lemma stripTags_close (r : List Char) :
    stripTags ('<' :: '/' :: 'b' :: '>' :: r) = stripTags r := by
  rw [stripTags]

lemma stripTags_keep {c : Char} (h : c ≠ '<') (r : List Char) :
    stripTags (c :: r) = c :: stripTags r := by
  rw [stripTags.eq_def]
  split <;> simp_all

lemma stripTags_lt_keep {r : List Char}
    (h1 : ¬ ∃ t, r = 'b' :: '>' :: t)
    (h2 : ¬ ∃ t, r = '/' :: 'b' :: '>' :: t) :
    stripTags ('<' :: r) = '<' :: stripTags r := by
  rw [stripTags.eq_def]
  split
  · next heq =>
    simp only [List.cons.injEq] at heq
    exact absurd ⟨_, heq.2⟩ h1
  · next heq =>
    simp only [List.cons.injEq] at heq
    exact absurd ⟨_, heq.2⟩ h2
  · next heq =>
    simp only [List.cons.injEq] at heq
    rw [← heq.1, ← heq.2]
  · next heq => cases heq

/-- Runs of word characters pass through `stripTags` untouched. -/
lemma stripTags_word {w : List Char} (hw : ∀ c ∈ w, isWordChar c = true) :
    ∀ r, stripTags (w ++ r) = w ++ stripTags r := by
  induction w with
  | nil => intro r; simp
  | cons c ws ih =>
    intro r
    have hc : c ≠ '<' := by
      intro hlt
      have := hw c (by simp)
      rw [hlt] at this
      cases this
    rw [List.cons_append, stripTags_keep hc,
      ih (fun d hd => hw d (List.mem_cons_of_mem _ hd))]
    rfl

/-- Runs of non-word, non-whitespace characters pass through `stripTags`
untouched, provided what follows is empty or a space. -/
lemma stripTags_punct {p : List Char}
    (hp : ∀ c ∈ p, isWordChar c = false ∧ isSpaceChar c = false)
    {r : List Char} (hr : r = [] ∨ ∃ r', r = ' ' :: r') :
    stripTags (p ++ r) = p ++ stripTags r := by
  induction p with
  | nil => simp
  | cons c p' ih =>
    have hp' : ∀ c ∈ p', isWordChar c = false ∧ isSpaceChar c = false :=
      fun d hd => hp d (List.mem_cons_of_mem _ hd)
    have ihp := ih hp'
    by_cases hc : c = '<'
    · subst hc
      have h1 : ¬ ∃ t, p' ++ r = 'b' :: '>' :: t := by
        rintro ⟨t, ht⟩
        cases p' with
        | nil =>
          simp only [List.nil_append] at ht
          rcases hr with rfl | ⟨r', rfl⟩
          · cases ht
          · simp at ht
        | cons e p'' =>
          simp only [List.cons_append, List.cons.injEq] at ht
          have he := (hp' e (by simp)).1
          rw [ht.1] at he
          cases he
      have h2 : ¬ ∃ t, p' ++ r = '/' :: 'b' :: '>' :: t := by
        rintro ⟨t, ht⟩
        cases p' with
        | nil =>
          simp only [List.nil_append] at ht
          rcases hr with rfl | ⟨r', rfl⟩
          · cases ht
          · simp at ht
        | cons e p'' =>
          cases p'' with
          | nil => rcases hr with rfl | ⟨r', rfl⟩ <;> simp at ht
          | cons e' p''' =>
            simp only [List.cons_append, List.cons.injEq] at ht
            have he := (hp' e' (by simp)).1
            rw [ht.2.1] at he
            cases he
      rw [List.cons_append, stripTags_lt_keep h1 h2, ihp]
      rfl
    · rw [List.cons_append, stripTags_keep hc, ihp]
      rfl

/-- Stripping the markers from a well-shaped element recovers its token
characters, also in front of a space or the end of the output. -/
lemma GoodElem.strip {e t : List Char} (he : GoodElem e t) {r : List Char}
    (hr : r = [] ∨ ∃ r', r = ' ' :: r') :
    stripTags (e ++ r) = t ++ stripTags r := by
  cases he with
  | punct p hp hne => exact stripTags_punct hp hr
  | word w1 w2 p h1 hne h2 hp =>
    have hOpen : "<b>".data = ['<', 'b', '>'] := rfl
    have hClose : "</b>".data = ['<', '/', 'b', '>'] := rfl
    rw [hOpen, hClose]
    simp only [List.append_assoc, List.cons_append, List.nil_append]
    rw [stripTags_open, stripTags_word h1, stripTags_close,
      stripTags_word h2, stripTags_punct hp hr]

lemma goodElem_append_punct {e t : List Char} (he : GoodElem e t)
    {c : Char} (hw : isWordChar c = false) (hs : isSpaceChar c = false) :
    GoodElem (e ++ [c]) (t ++ [c]) := by
  induction he with
  | punct p hp hne =>
    refine GoodElem.punct (p ++ [c]) ?_ (by simp)
    intro d hd
    rcases List.mem_append.1 hd with hd | hd
    · exact hp d hd
    · simp only [List.mem_singleton] at hd
      subst hd
      exact ⟨hw, hs⟩
  | word w1 w2 p h1 hne h2 hp =>
    have hp' : ∀ d ∈ p ++ [c], isWordChar d = false ∧ isSpaceChar d = false := by
      intro d hd
      rcases List.mem_append.1 hd with hd | hd
      · exact hp d hd
      · simp only [List.mem_singleton] at hd
        subst hd
        exact ⟨hw, hs⟩
    have := GoodElem.word w1 w2 (p ++ [c]) h1 hne h2 hp'
    simpa [List.append_assoc] using this

lemma goodElem_wordBold {tok : List Char} (hne : tok ≠ [])
    (hw : ∀ c ∈ tok, isWordChar c = true) :
    GoodElem (wordBold tok) tok := by
  have htake : ∀ c ∈ tok.take (point tok.length), isWordChar c = true :=
    fun c hc => hw c (List.mem_of_mem_take hc)
  have hdrop : ∀ c ∈ tok.drop (point tok.length), isWordChar c = true :=
    fun c hc => hw c (List.mem_of_mem_drop hc)
  have htne : tok.take (point tok.length) ≠ [] := by
    have h1 : 1 ≤ point tok.length := by
      unfold point
      split
      · exact Nat.clog_pos (by norm_num) (by omega)
      · exact le_refl 1
    have : (tok.take (point tok.length)).length =
        min (point tok.length) tok.length := List.length_take ..
    intro hnil
    rw [hnil] at this
    have hl : 0 < tok.length := List.length_pos.2 hne
    simp only [List.length_nil] at this
    omega
  have := GoodElem.word (tok.take (point tok.length))
    (tok.drop (point tok.length)) [] htake htne hdrop (by simp)
  simpa [wordBold, List.take_append_drop] using this

lemma forall₂_appendToLast {R T : List (List Char)}
    (h : List.Forall₂ GoodElem R T) {c : Char} (hw : isWordChar c = false)
    (hs : isSpaceChar c = false) :
    List.Forall₂ GoodElem (appendToLast [c] R) (appendToLast [c] T) := by
  induction h with
  | nil =>
    simp only [appendToLast]
    exact List.Forall₂.cons
      (GoodElem.punct [c] (by simp [hw, hs]) (by simp)) List.Forall₂.nil
  | @cons e t es ts het hrest ih =>
    match es, ts, hrest with
    | [], [], _ =>
      simp only [appendToLast]
      exact List.Forall₂.cons (goodElem_append_punct het hw hs)
        List.Forall₂.nil
    | e' :: es', t' :: ts', hrest =>
      show List.Forall₂ GoodElem (e :: appendToLast [c] (e' :: es'))
        (t :: appendToLast [c] (t' :: ts'))
      exact List.Forall₂.cons het ih

/-- The loop of `bolding` keeps every accumulated element well-shaped,
with the ghost accumulator carrying the unmarked token characters. -/
lemma fold_invariant (toks : List (List Char))
    (htoks : ∀ tok ∈ toks,
      (tok ≠ [] ∧ ∀ c ∈ tok, isWordChar c = true) ∨
      (∃ c, tok = [c] ∧ isWordChar c = false ∧ isSpaceChar c = false)) :
    ∀ R T, List.Forall₂ GoodElem R T →
      List.Forall₂ GoodElem (toks.foldl processToken R)
        (toks.foldl processTokenPlain T) := by
  induction toks with
  | nil => intro R T h; simpa using h
  | cons tok toks ih =>
    intro R T h
    rw [List.foldl_cons, List.foldl_cons]
    refine ih (fun t ht => htoks t (List.mem_cons_of_mem _ ht)) _ _ ?_
    rcases htoks tok (by simp) with ⟨hne, hw⟩ | ⟨c, rfl, hw, hs⟩
    · unfold processToken processTokenPlain
      rw [isPunctTok_of_word hne hw]
      simp only [Bool.false_eq_true, if_false]
      exact List.rel_append h
        (List.Forall₂.cons (goodElem_wordBold hne hw) List.Forall₂.nil)
    · have hpunct : isPunctTok [c] = true := by simp [isPunctTok, hw, hs]
      unfold processToken processTokenPlain
      rw [hpunct]
      simp only [if_true]
      exact forall₂_appendToLast h hw hs

/-- Stripping the whole joined output recovers the joined ghost result. -/
lemma stripTags_joinSpace {R T : List (List Char)}
    (h : List.Forall₂ GoodElem R T) :
    stripTags (joinSpace R) = joinSpace T := by
  induction h with
  | nil => simp [joinSpace, stripTags_nil]
  | @cons e t es ts het hrest ih =>
    match es, ts, hrest with
    | [], [], _ =>
      show stripTags (joinSpace [e]) = joinSpace [t]
      have := het.strip (r := []) (Or.inl rfl)
      simpa [joinSpace, stripTags_nil] using this
    | e' :: es', t' :: ts', hrest =>
      have := het.strip (r := ' ' :: joinSpace (e' :: es')) (Or.inr ⟨_, rfl⟩)
      rw [joinSpace_cons_of_ne (r := e) (by simp), this,
        stripTags_keep (by decide), ih,
        joinSpace_cons_of_ne (r := t) (by simp)]

lemma flatten_processTokenPlain (T : List (List Char)) (tok : List Char) :
    (processTokenPlain T tok).flatten = T.flatten ++ tok := by
  unfold processTokenPlain
  split
  · exact flatten_appendToLast tok T
  · simp

/-- The ghost accumulator concatenates to the original token stream. -/
lemma flatten_foldl_plain :
    ∀ (toks : List (List Char)) (T : List (List Char)),
      (toks.foldl processTokenPlain T).flatten = T.flatten ++ toks.flatten := by
  intro toks
  induction toks with
  | nil => intro T; simp
  | cons tok toks ih =>
    intro T
    rw [List.foldl_cons, ih, flatten_processTokenPlain]
    simp

lemma mem_appendToLast {tok e : List Char} :
    ∀ {T : List (List Char)}, e ∈ appendToLast tok T →
      e ∈ T ∨ e = tok ∨ ∃ r ∈ T, e = r ++ tok := by
  intro T
  induction T with
  | nil =>
    intro h
    simp only [appendToLast, List.mem_singleton] at h
    exact Or.inr (Or.inl h)
  | cons r rs ih =>
    intro h
    match rs, h with
    | [], h =>
      simp only [appendToLast, List.mem_singleton] at h
      exact Or.inr (Or.inr ⟨r, by simp, h⟩)
    | r' :: rs', h =>
      rcases List.mem_cons.1 h with rfl | h'
      · exact Or.inl (by simp)
      · rcases ih h' with h1 | h2 | ⟨q, hq, he⟩
        · exact Or.inl (List.mem_cons_of_mem _ h1)
        · exact Or.inr (Or.inl h2)
        · exact Or.inr (Or.inr ⟨q, List.mem_cons_of_mem _ hq, he⟩)

/-- Characters of the ghost accumulator all come from the tokens, hence are
never whitespace. -/
lemma foldl_plain_nonspace :
    ∀ (toks : List (List Char)),
      (∀ tok ∈ toks, ∀ c ∈ tok, isSpaceChar c = false) →
      ∀ T, (∀ e ∈ T, ∀ c ∈ e, isSpaceChar c = false) →
      ∀ e ∈ toks.foldl processTokenPlain T, ∀ c ∈ e,
        isSpaceChar c = false := by
  intro toks
  induction toks with
  | nil => intro _ T hT e he; exact hT e he
  | cons tok toks ih =>
    intro htoks T hT
    rw [List.foldl_cons]
    refine ih (fun t ht => htoks t (List.mem_cons_of_mem _ ht)) _ ?_
    intro e he c hc
    unfold processTokenPlain at he
    have htok := htoks tok (by simp)
    split at he
    · rcases mem_appendToLast he with h1 | h2 | ⟨q, hq, rfl⟩
      · exact hT e h1 c hc
      · exact htok c (h2 ▸ hc)
      · rcases List.mem_append.1 hc with hc | hc
        · exact hT q hq c hc
        · exact htok c hc
    · rcases List.mem_append.1 he with he | he
      · exact hT e he c hc
      · simp only [List.mem_singleton] at he
        exact htok c (he ▸ hc)

/-- On a list whose elements contain no whitespace, filtering the
space-joined concatenation yields the plain concatenation. -/
lemma filter_joinSpace :
    ∀ (T : List (List Char)),
      (∀ e ∈ T, ∀ c ∈ e, isSpaceChar c = false) →
      (joinSpace T).filter (fun c => !isSpaceChar c) = T.flatten := by
  intro T
  induction T with
  | nil => simp [joinSpace]
  | cons e es ih =>
    intro h
    have he : e.filter (fun c => !isSpaceChar c) = e :=
      List.filter_eq_self.2 fun c hc => by simp [h e (by simp) c hc]
    match es with
    | [] => simp [joinSpace, he]
    | e' :: es' =>
      rw [joinSpace_cons_of_ne (by simp), List.filter_append,
        List.filter_cons_of_neg (by decide), he,
        ih fun t ht => h t (List.mem_cons_of_mem _ ht)]
      simp

/-- C3 counterexample: deleting the emphasis markers from
`bolding " a"` yields `"a"`, not the original input `" a"`: the input's
leading whitespace is not recovered. -/
theorem bolding_marker_roundtrip_cex :
    stripTags (bolding " a").data ≠ " a".data := by
  have h : bolding " a" = "<b>a</b>" := by
    simp +decide [bolding, tokenize, processToken, joinSpace, wordBold,
      point]
  rw [h]
  rw [show ("<b>a</b>".data) = ['<', 'b', '>', 'a', '<', '/', 'b', '>']
    from rfl, stripTags_open, stripTags_keep (by decide), stripTags_close,
    stripTags_nil]
  decide

/-- C3 amended: deleting all emphasis markers from `bolding`'s output
recovers exactly the input's non-whitespace characters, in order; the
whitespace itself is normalized (runs become single separating spaces), as
documented in the spec's design notes. -/
theorem bolding_marker_roundtrip_amended (s : String) :
    (stripTags (bolding s).data).filter (fun c => !isSpaceChar c)
      = s.data.filter (fun c => !isSpaceChar c) := by
  have hshape := fun tok (h : tok ∈ tokenize s.data) => tokenize_shape h
  have hF : List.Forall₂ GoodElem
      ((tokenize s.data).foldl processToken [])
      ((tokenize s.data).foldl processTokenPlain []) :=
    fold_invariant _ hshape _ _ List.Forall₂.nil
  have hdata : (bolding s).data
      = joinSpace ((tokenize s.data).foldl processToken []) := rfl
  have htok_nonspace : ∀ tok ∈ tokenize s.data, ∀ c ∈ tok,
      isSpaceChar c = false := by
    intro tok ht c hc
    rcases hshape tok ht with ⟨_, hw⟩ | ⟨d, rfl, _, hs⟩
    · exact word_not_space (hw c hc)
    · simp only [List.mem_singleton] at hc
      exact hc ▸ hs
  have hT_nonspace : ∀ e ∈ (tokenize s.data).foldl processTokenPlain [],
      ∀ c ∈ e, isSpaceChar c = false :=
    foldl_plain_nonspace _ htok_nonspace [] (by simp)
  rw [hdata, stripTags_joinSpace hF, filter_joinSpace _ hT_nonspace,
    flatten_foldl_plain, tokenize_flatten]
  simp

/-! ### Job-level lemmas -/

lemma runDocs_no_cancel (ft : String) (cancel : Nat → Bool)
    (h : ∀ k, cancel k = false) :
    ∀ (ds : List DocEnv) (k : Nat),
      runDocs ft cancel k ds = (ds.map (process_html_file · ft), true) := by
  intro ds
  induction ds with
  | nil => intro k; rfl
  | cons d ds ih =>
    intro k
    simp [runDocs, h k, ih (k + 1)]

/-- A job with no cancellation, a readable archive, at least one document
and a successful repack processes every document in order and produces the
archive at `<dest>/b_<name>.epub`. -/
lemma generate_epub_success (file_name dest : String) (env : JobEnv)
    (hc : ∀ k, env.cancel k = false) (he : env.extractOk = true)
    (hd : env.docs ≠ []) (hp : env.packOk = true) :
    (generate_epub file_name dest env).outcomes
      = env.docs.map (process_html_file · first_tags) ∧
    (generate_epub file_name dest env).output
      = some (dest ++ "/b_" ++ file_name ++ ".epub") := by
  unfold generate_epub
  simp only [hc 0, Bool.false_eq_true, if_false, he, Bool.not_true, hp,
    if_neg hd, runDocs_no_cancel _ _ hc]
  simp

lemma runDocs_cancelled (ft : String) (cancel : Nat → Bool)
    (hmono : ∀ i j, i ≤ j → cancel i = true → cancel j = true)
    {k : Nat} (hk : cancel k = true) :
    ∀ (ds : List DocEnv) (k0 : Nat), k0 ≤ k → k < k0 + ds.length →
      (runDocs ft cancel k0 ds).2 = false ∧
      (runDocs ft cancel k0 ds).1.length ≤ k - k0 := by
  intro ds
  induction ds with
  | nil =>
    intro k0 h1 h2
    simp only [List.length_nil] at h2
    omega
  | cons d ds ih =>
    intro k0 h1 h2
    by_cases hc0 : cancel k0
    · simp [runDocs, hc0]
    · have hlt : k0 < k := by
        rcases Nat.lt_or_ge k0 k with h | h
        · exact h
        · exact absurd (hmono k k0 h hk) (by simp [hc0])
      have hrec := ih (k0 + 1) hlt
        (by simp only [List.length_cons] at h2; omega)
      simp only [runDocs, hc0, Bool.false_eq_true, if_false]
      refine ⟨hrec.1, ?_⟩
      simp only [List.length_cons]
      have := hrec.2
      omega

lemma submitJobs_cancelled (cancel : Nat → Bool)
    (hmono : ∀ i j, i ≤ j → cancel i = true → cancel j = true)
    {k : Nat} (hk : cancel k = true) :
    ∀ (files : List String) (k0 : Nat), k0 ≤ k →
      (submitJobs cancel k0 files).length ≤ k - k0 := by
  intro files
  induction files with
  | nil => intro k0 _; simp [submitJobs]
  | cons f fs ih =>
    intro k0 h1
    by_cases hc0 : cancel k0
    · simp [submitJobs, hc0]
    · have hlt : k0 < k := by
        rcases Nat.lt_or_ge k0 k with h | h
        · exact h
        · exact absurd (hmono k k0 h hk) (by simp [hc0])
      have hrec := ih (k0 + 1) hlt
      simp only [submitJobs, hc0, Bool.false_eq_true, if_false,
        List.length_cons]
      omega

/-! ### Claim theorems about the pipeline -/

/-- C8: a job whose archive extracts successfully but contains no HTML
documents completes without error with zero transformed documents, logs an
informational "No HTML files found" entry, and produces no output
archive. -/
theorem no_documents_found_job (file_name dest : String) (env : JobEnv)
    (hc : env.cancel 0 = false) (he : env.extractOk = true)
    (hd : env.docs = []) :
    generate_epub file_name dest env =
      { logs := ["Processing " ++ file_name ++ "...",
          "Extracted " ++ file_name ++ " successfully.",
          "No HTML files found in " ++ file_name],
        outcomes := [], output := none } := by
  unfold generate_epub
  simp only [hc, Bool.false_eq_true, if_false, he, Bool.not_true,
    if_pos hd]
  simp

/-- Witness for C8 at a concrete empty-archive job. -/
theorem no_documents_found_job_witness :
    generate_epub "book.epub" "out"
      { cancel := fun _ => false, extractOk := true, docs := [],
        packOk := true } =
      { logs := ["Processing " ++ "book.epub" ++ "...",
          "Extracted " ++ "book.epub" ++ " successfully.",
          "No HTML files found in " ++ "book.epub"],
        outcomes := [], output := none } :=
  no_documents_found_job "book.epub" "out" _ rfl rfl rfl

/-- C10: when the read of a document fails, `process_html_file` attempts
no write and the document's on-disk contents are unchanged. -/
theorem read_failure_leaves_document (env : DocEnv)
    (firstTags orig : String) (hr : env.readResult = none) :
    (process_html_file env firstTags).writeAttempt = none ∧
    docFinalContents orig env firstTags = orig := by
  have h1 : (process_html_file env firstTags).writeAttempt = none := by
    unfold process_html_file
    rw [hr]
  refine ⟨h1, ?_⟩
  unfold docFinalContents
  rw [h1]

/-- Witness for C10 at a concrete failing read. -/
theorem read_failure_leaves_document_witness :
    (process_html_file ⟨"a.html", none, true⟩ first_tags).writeAttempt
      = none ∧
    docFinalContents "original text" ⟨"a.html", none, true⟩ first_tags
      = "original text" :=
  read_failure_leaves_document ⟨"a.html", none, true⟩ first_tags
    "original text" rfl

/-- C9: the cancellation flag is checked at the start of each job and
before each document: a job seeing the flag at its first check performs no
work at all; a job whose k-th check observes the flag transforms fewer
than k documents and produces no archive; the submission loop submits at
most k files when the k-th pre-submission check observes the flag. -/
theorem cancellation_signal_checks (file_name dest : String) (env : JobEnv)
    (files : List String) (k : Nat)
    (hmono : ∀ i j, i ≤ j → env.cancel i = true → env.cancel j = true)
    (hk : env.cancel k = true) :
    (env.cancel 0 = true → generate_epub file_name dest env
        = { logs := [], outcomes := [], output := none }) ∧
    (1 ≤ k → k ≤ env.docs.length →
      (generate_epub file_name dest env).outcomes.length < k ∧
      (generate_epub file_name dest env).output = none) ∧
    (submitJobs env.cancel 0 files).length ≤ k := by
  refine ⟨?_, ?_, ?_⟩
  · intro h0
    unfold generate_epub
    rw [if_pos h0]
  · intro h1 h2
    by_cases h0 : env.cancel 0
    · unfold generate_epub
      rw [if_pos h0]
      simp
      omega
    · by_cases he : env.extractOk
      · have hd : env.docs ≠ [] := by
          intro h
          rw [h] at h2
          simp at h2
          omega
        have hrd := runDocs_cancelled first_tags env.cancel hmono hk
          env.docs 1 h1 (by omega)
        unfold generate_epub
        rw [if_neg h0]
        simp only [he, Bool.not_true, Bool.false_eq_true, if_false,
          if_neg hd, hrd.1]
        refine ⟨?_, by trivial⟩
        have := hrd.2
        omega
      · unfold generate_epub
        rw [if_neg h0]
        simp only [(by simp [he] : env.extractOk = false), Bool.not_false,
          if_true]
        refine ⟨?_, by trivial⟩
        simp
        omega
  · have := submitJobs_cancelled env.cancel hmono hk files 0 (Nat.zero_le k)
    simpa using this

/-- C4 counterexample: for the input archive `book.epub` and destination
`out`, the produced archive is `out/b_book.epub.epub` — `create_epub`
appends a further `.epub` to `b_<original-filename>` — and not the
claimed `out/b_book.epub`. -/
theorem output_path_cex :
    (generate_epub "book.epub" "out" okJobEnv).output
      = some "out/b_book.epub.epub" ∧
    (generate_epub "book.epub" "out" okJobEnv).output
      ≠ some "out/b_book.epub" := by
  have h := (generate_epub_success "book.epub" "out" okJobEnv
    (fun k => rfl) rfl (by simp [okJobEnv]) rfl).2
  exact ⟨by rw [h]; decide, by rw [h]; decide⟩

/-- C4 amended: a job on an archive with at least one markup document
(and no failure or cancellation) produces exactly one new archive, at
`<destination>/<prefix>_<original-filename>.epub`: the fixed prefix `b_`
and an additional `.epub` extension appended to the input archive's own
filename. -/
theorem output_path_amended (file_name dest : String) (env : JobEnv)
    (hc : ∀ k, env.cancel k = false) (he : env.extractOk = true)
    (hd : env.docs ≠ []) (hp : env.packOk = true) :
    (generate_epub file_name dest env).output
      = some (dest ++ "/b_" ++ file_name ++ ".epub") :=
  (generate_epub_success file_name dest env hc he hd hp).2

/-- Witness for the amended C4 at the concrete one-document job. -/
theorem output_path_amended_witness :
    (generate_epub "book.epub" "out" okJobEnv).output
      = some ("out" ++ "/b_" ++ "book.epub" ++ ".epub") :=
  output_path_amended "book.epub" "out" okJobEnv (fun k => rfl) rfl
    (by simp [okJobEnv]) rfl

/-- C6 counterexample: with the first document's read failing, the job is
not aborted — the second document is still transformed (its write is
attempted) and the output archive is still produced. -/
theorem doc_failure_abort_cex :
    (generate_epub "book.epub" "out" readFailEnv).output
      = some "out/b_book.epub.epub" ∧
    (generate_epub "book.epub" "out" readFailEnv).outcomes.map
      (fun o => o.writeAttempt.isSome) = [false, true] := by
  have h := generate_epub_success "book.epub" "out" readFailEnv
    (fun k => rfl) rfl (by simp [readFailEnv]) rfl
  refine ⟨by rw [h.2]; decide, ?_⟩
  rw [h.1]
  simp [readFailEnv, process_html_file]

/-- C6 amended: a failed read of one document skips only that document
(its write is not attempted, its file is left as is) and a failed write
leaves that document unchanged, but in both cases the error is logged and
swallowed: the job continues, every other document is still transformed,
the output archive is still produced, and earlier documents' output is
not rolled back. -/
theorem doc_failure_job_continues (file_name dest : String) (env : JobEnv)
    (hc : ∀ k, env.cancel k = false) (he : env.extractOk = true)
    (hp : env.packOk = true) (i : Nat) (hi : i < env.docs.length)
    (hfail : (env.docs.get ⟨i, hi⟩).readResult = none) :
    (process_html_file (env.docs.get ⟨i, hi⟩) first_tags).writeAttempt
      = none ∧
    (generate_epub file_name dest env).outcomes
      = env.docs.map (process_html_file · first_tags) ∧
    (generate_epub file_name dest env).output
      = some (dest ++ "/b_" ++ file_name ++ ".epub") := by
  have hd : env.docs ≠ [] := by
    intro h
    rw [h] at hi
    simp at hi
  have hs := generate_epub_success file_name dest env hc he hd hp
  refine ⟨?_, hs.1, hs.2⟩
  unfold process_html_file
  rw [hfail]

/-- Witness for the amended C6 at the concrete two-document job. -/
theorem doc_failure_job_continues_witness :
    (process_html_file
      (readFailEnv.docs.get ⟨0, by simp [readFailEnv]⟩)
      first_tags).writeAttempt = none ∧
    (generate_epub "book.epub" "out" readFailEnv).outcomes
      = readFailEnv.docs.map (process_html_file · first_tags) ∧
    (generate_epub "book.epub" "out" readFailEnv).output
      = some ("out" ++ "/b_" ++ "book.epub" ++ ".epub") :=
  doc_failure_job_continues "book.epub" "out" readFailEnv (fun k => rfl)
    rfl rfl 0 (by simp [readFailEnv]) rfl

lemma parseHtml_nil : parseHtml [] = [] := by
  rw [parseHtml.eq_def]

lemma amb_cons_nonamp {c : Char} (h : c ≠ '&') (t : List Char) :
    ambiguousTrailingAmp (c :: t) = ambiguousTrailingAmp t := by
  rw [ambiguousTrailingAmp.eq_def]
  split <;> simp_all

lemma amb_append_nonamp {b : List Char} (hb : ∀ c ∈ b, c ≠ '&') :
    ∀ r, ambiguousTrailingAmp (b ++ r) = ambiguousTrailingAmp r := by
  induction b with
  | nil => intro r; rfl
  | cons c bs ih =>
    intro r
    rw [List.cons_append, amb_cons_nonamp (hb c (by simp)),
      ih (fun d hd => hb d (List.mem_cons_of_mem _ hd))]

lemma safeRefs_cons_nonamp {c : Char} (h : c ≠ '&') (t : List Char) :
    safeRefs (c :: t) = safeRefs t := by
  rw [safeRefs.eq_def]
  split <;> simp_all

/-- A recognized named reference body starts with a semicolon-terminated,
`&`-free run of exactly the consumed length. -/
lemma namedEntity_semi {rest : List Char} {r : Char × Nat}
    (h : namedEntity rest = some r) :
    ';' ∈ rest.take r.2 ∧ ∀ d ∈ rest.take r.2, d ≠ '&' := by
  unfold namedEntity at h
  split_ifs at h with h1 h2 h3 h4 h5 h6
  · cases h
    exact ⟨by rw [h1]; decide, by rw [h1]; decide⟩
  · cases h
    exact ⟨by rw [h2]; decide, by rw [h2]; decide⟩
  · cases h
    exact ⟨by rw [h3]; decide, by rw [h3]; decide⟩
  · cases h
    exact ⟨by rw [h4]; decide, by rw [h4]; decide⟩
  · cases h
    exact ⟨by rw [h5]; decide, by rw [h5]; decide⟩
  · cases h
    exact ⟨by rw [h6]; decide, by rw [h6]; decide⟩

/-- Text whose references are all resolved named references never ends in
an unresolved `&`-run: the wait-for-more-text rule does not withhold it. -/
lemma safe_not_ambiguous : ∀ {l : List Char}, safeRefs l = true →
    ambiguousTrailingAmp l = false := by
  intro l
  induction l using safeRefs.induct with
  | case1 => intro _; rfl
  | case2 rest r heq ih =>
    intro hs
    have hs' : safeRefs (rest.drop r.2) = true := by
      rw [safeRefs.eq_def] at hs
      simp only [heq] at hs
      exact hs
    obtain ⟨hsem, hamp⟩ := namedEntity_semi heq
    rw [ambiguousTrailingAmp]
    have hall : rest.all
        (fun c => !isSpaceChar c && c != ';' && c != '&') = false := by
      cases hall' : rest.all
          (fun c => !isSpaceChar c && c != ';' && c != '&') with
      | false => rfl
      | true =>
        exfalso
        have hsemi' : ';' ∈ rest := List.mem_of_mem_take hsem
        have := List.all_eq_true.1 hall' ';' hsemi'
        simp at this
    have hrest : ambiguousTrailingAmp rest = false := by
      conv_lhs => rw [← List.take_append_drop r.2 rest]
      rw [amb_append_nonamp hamp, ih hs']
    rw [hall, hrest]
    simp
  | case3 rest heq =>
    intro hs
    rw [safeRefs.eq_def] at hs
    simp only [heq] at hs
    cases hs
  | case4 c rest hne ih =>
    intro hs
    have hc : c ≠ '&' := by
      intro h
      subst h
      exact hne rfl
    rw [safeRefs_cons_nonamp hc] at hs
    rw [amb_cons_nonamp hc]
    exact ih hs

/-- The event stream of the document `<p>&amp;</p>`: the entity reference
is decoded to `&` in the text event. -/
lemma parseHtml_amp :
    parseHtml "<p>&amp;</p>".data
      = [HtmlPart.startTag "p" [], HtmlPart.dataText "&",
         HtmlPart.endTag "p"] := by
  simp +decide [parseHtml, decodeCharrefs, matchEntity, namedEntity,
    parseAttrs, splitAttrsAux, ambiguousTrailingAmp, digitsVal,
    Char.toLower]

/-- C5 counterexample: the tokenizer does not forward the entity reference
`&amp;` opaquely: no text event carries it verbatim — the decoded `&`
appears instead — and reassembling the document yields the decoded
character, not the original reference. -/
theorem entity_opaque_cex :
    HtmlPart.dataText "&amp;" ∉ parseHtml "<p>&amp;</p>".data ∧
    HtmlPart.dataText "&" ∈ parseHtml "<p>&amp;</p>".data ∧
    transformHtml first_tags "<p>&amp;</p>"
      ≠ first_tags ++ "<p>&amp;</p>" := by
  refine ⟨by rw [parseHtml_amp]; decide, by rw [parseHtml_amp]; decide, ?_⟩
  unfold transformHtml
  rw [parseHtml_amp]
  have hb : bolding "&" = "&" := by
    simp +decide [bolding, tokenize, processToken, joinSpace]
  simp only [reassemble, List.foldl_cons, List.foldl_nil, renderPart, hb]
  decide

/-- C5 amended: the tokenizer runs with the standard library's default
`convert_charrefs=True`, so character and entity references inside text
data are decoded to their characters before the text events are emitted;
the decoded characters, not the raw references, are what reassembly
writes back.  A tagless text run whose references are all resolved named
references becomes a single text event with each reference replaced by
its character; a trailing run that ends in an unresolved `&`-run (such as
a lone `&amp`) is buffered by the parser waiting for more text and —
since the program never calls `close()` — yields no event at all. -/
theorem entity_decoded_amended (l : List Char) (hne : l ≠ [])
    (hlt : ∀ c ∈ l, (c == '<') = false) (hsafe : safeRefs l = true) :
    parseHtml l = [HtmlPart.dataText ⟨decodeCharrefs l⟩] ∧
    parseHtml "&amp".data = [] ∧
    parseHtml "<p>&amp;</p>".data
      = [HtmlPart.startTag "p" [], HtmlPart.dataText "&",
         HtmlPart.endTag "p"] ∧
    decodeCharrefs "&amp;".data = "&".data ∧
    decodeCharrefs "&nbsp; x".data = Char.ofNat 160 :: " x".data := by
  refine ⟨?_, ?_, parseHtml_amp, ?_, ?_⟩
  · cases l with
    | nil => cases hne rfl
    | cons c rest =>
      have hc : (c == '<') = false := hlt c (by simp)
      have h1 : rest.takeWhile (· != '<') = rest :=
        List.takeWhile_eq_self_iff.2 fun d hd => by
          simp only [bne, hlt d (List.mem_cons_of_mem _ hd),
            Bool.not_false]
      have h2 : rest.dropWhile (· != '<') = [] :=
        List.dropWhile_eq_nil_iff.2 fun d hd => by
          simp only [bne, hlt d (List.mem_cons_of_mem _ hd),
            Bool.not_false]
      have hamb : ambiguousTrailingAmp (c :: rest) = false :=
        safe_not_ambiguous hsafe
      rw [parseHtml.eq_def]
      simp only [hc, Bool.false_eq_true, if_false, h1, h2,
        List.isEmpty_nil, Bool.true_and, hamb, parseHtml_nil]
  · simp +decide [parseHtml, ambiguousTrailingAmp, isSpaceChar]
  · simp +decide [decodeCharrefs, matchEntity, namedEntity, digitsVal]
  · simp +decide [decodeCharrefs, matchEntity, namedEntity, digitsVal]

/-- Witness for the amended C5 at the tagless run `&amp; x`. -/
theorem entity_decoded_amended_witness :
    parseHtml "&amp; x".data
      = [HtmlPart.dataText ⟨decodeCharrefs "&amp; x".data⟩] ∧
    parseHtml "&amp".data = [] ∧
    parseHtml "<p>&amp;</p>".data
      = [HtmlPart.startTag "p" [], HtmlPart.dataText "&",
         HtmlPart.endTag "p"] ∧
    decodeCharrefs "&amp;".data = "&".data ∧
    decodeCharrefs "&nbsp; x".data = Char.ofNat 160 :: " x".data :=
  entity_decoded_amended "&amp; x".data (by decide) (by decide)
    (by simp +decide [safeRefs, namedEntity])

/-- Witness for C9: the flag set from check 1 on, one-document job, two
queued files. -/
theorem cancellation_signal_checks_witness :
    (lateCancelEnv.cancel 0 = true →
      generate_epub "book.epub" "out" lateCancelEnv
        = { logs := [], outcomes := [], output := none }) ∧
    (1 ≤ 1 → 1 ≤ lateCancelEnv.docs.length →
      (generate_epub "book.epub" "out" lateCancelEnv).outcomes.length < 1 ∧
      (generate_epub "book.epub" "out" lateCancelEnv).output = none) ∧
    (submitJobs lateCancelEnv.cancel 0 ["f", "g"]).length ≤ 1 :=
  cancellation_signal_checks "book.epub" "out" lateCancelEnv
    ["f", "g"] 1
    (fun i j hij hi => decide_eq_true
      (le_trans (of_decide_eq_true hi) hij))
    (by decide)

end Bionic
